import Mathlib

/-!
Verification development for the extractive-summarization core of the
`mcp-youtube-summary` repository (`src/youtube_summary_mcp/summary_generator.py`,
with the length-preset table of `config_manager.py`).

Conventions of the shallow embedding:
* Python `float` values occurring in the engine (ratios, frequency weights,
  sentence scores) are modelled as exact rationals (`ℚ`).
* Python `dict` values are modelled as association lists in insertion order,
  which is exactly the iteration order Python guarantees; assignment to an
  existing key keeps its position, a new key is appended (`dictSet`, `bumpCount`).
* Python exceptions are modelled by the `PyExc` type and fallible code returns
  `Except PyExc α`.  The nltk collaborators `sent_tokenize` / `word_tokenize`
  and the stopword set are external library calls; they are modelled as the
  fields of a `Tokenizer` value, each allowed to fail (a concrete pure instance
  `modelTokenizer`, written from the spec's Tokenizer contract, is used to
  instantiate theorems).
* Python's `sorted` is modelled by `pySortBy`, a stable insertion sort; Python
  documents `sorted` as a stable sort, and all stable sorts agree.
-/

/-- Python exception values as observed by the engine: the repository's single
`SummaryGeneratorError` class — raised plain, or raised with `from e` so that
it carries the original exception as its cause — and any exception coming out
of a library call. -/
inductive PyExc where
  | summaryGeneratorError (msg : String)
  | summaryGeneratorErrorFrom (msg : String) (cause : PyExc)
  | libraryError (msg : String)
deriving DecidableEq, Repr

deriving instance DecidableEq for Except

/-- The `str(e)` message of an exception. -/
def PyExc.message : PyExc → String
  | .summaryGeneratorError m => m
  | .summaryGeneratorErrorFrom m _ => m
  | .libraryError m => m

/-- `isinstance(e, SummaryGeneratorError)`. -/
def PyExc.isSGE : PyExc → Bool
  | .libraryError _ => false
  | _ => true

/-- `SummaryGeneratorError("Input text cannot be empty")` — the spec's
`EmptyInputError`. -/
def EmptyInputError : PyExc := .summaryGeneratorError "Input text cannot be empty"

/-- `SummaryGeneratorError("Ratio must be between 0.0 and 1.0")` — the spec's
`InvalidRatioError`. -/
def InvalidRatioError : PyExc := .summaryGeneratorError "Ratio must be between 0.0 and 1.0"

/-- The characters matched by Python's regex `\s` (ASCII range). -/
def pyIsSpace (c : Char) : Bool :=
  c = ' ' || c = '\t' || c = '\n' || c = '\r' || c = '\x0b' || c = '\x0c'

/-- Python `str.strip()` on the character list. -/
def stripChars (l : List Char) : List Char :=
  ((l.dropWhile pyIsSpace).reverse.dropWhile pyIsSpace).reverse

/-- Python `str.strip()`. -/
def pyStrip (s : String) : String := String.mk (stripChars s.toList)

/-- Worker for `collapseChars`; the flag records whether the previous
character was whitespace (i.e. we are inside a run that already emitted its
single space). -/
def collapseAux (inRun : Bool) : List Char → List Char
  | [] => []
  | c :: rest =>
    if pyIsSpace c then
      if inRun then collapseAux true rest else ' ' :: collapseAux true rest
    else c :: collapseAux false rest

/-- `re.sub(r"\s+", " ", text)`: every maximal whitespace run becomes one space. -/
def collapseChars (l : List Char) : List Char := collapseAux false l

/-- `TFIDFSummarizer._preprocess_text`: collapse whitespace runs, then strip. -/
def preprocess_text (s : String) : String :=
  pyStrip (String.mk (collapseChars s.toList))

/-- Python `str.lower()` (ASCII model). -/
def pyLower (s : String) : String := s.toLower

/-- Python `str.isalpha()` (ASCII model): non-empty and all alphabetic. -/
def pyIsAlpha (s : String) : Bool :=
  !s.toList.isEmpty && s.toList.all Char.isAlpha

/-- The external nltk collaborators used by the engine: `sent_tokenize`,
`word_tokenize` and the English stopword set.  Library calls may raise. -/
structure Tokenizer where
  sentTokenize : String → Except PyExc (List String)
  wordTokenize : String → Except PyExc (List String)
  stopWords : List String

/-- Python `dict` lookup on the association-list model. -/
def dictGet? (m : List (String × ℚ)) (k : String) : Option ℚ :=
  (m.find? (fun p => p.1 = k)).map (fun p => p.2)

/-- Python `dict` assignment `m[k] = v`: an existing key keeps its position
and gets the new value, a new key is appended. -/
def dictSet (m : List (String × ℚ)) (k : String) (v : ℚ) : List (String × ℚ) :=
  if m.any (fun p => p.1 = k) then m.map (fun p => if p.1 = k then (k, v) else p)
  else m ++ [(k, v)]

/-- `word_freq[word] = word_freq.get(word, 0) + 1` on the counting dict. -/
def bumpCount (m : List (String × ℕ)) (word : String) : List (String × ℕ) :=
  if m.any (fun p => p.1 = word) then
    m.map (fun p => if p.1 = word then (p.1, p.2 + 1) else p)
  else m ++ [(word, 1)]

/-- The counting loop of `_calculate_word_frequencies`. -/
def countWords (words : List String) : List (String × ℕ) :=
  words.foldl bumpCount []

/-- Python `max` over a list of naturals (`0` on the empty list; the engine
only applies it to non-empty lists of positive counts). -/
def listMax (l : List ℕ) : ℕ := l.foldr max 0

/-- The stopword / non-alphabetic filter of `_calculate_word_frequencies`. -/
def filteredWords (words : List String) (stop : List String) : List String :=
  words.filter (fun word => pyIsAlpha word && !stop.contains word)

/-- The pure part of `TFIDFSummarizer._calculate_word_frequencies`, applied to
the token list returned by `word_tokenize(text.lower())`: filter, count,
normalize by the maximum count. -/
def wordFreqOf (words : List String) (stop : List String) : List (String × ℚ) :=
  let filtered := filteredWords words stop
  if filtered.isEmpty then []
  else
    let counts := countWords filtered
    let maxFreq := listMax (counts.map (fun p => p.2))
    counts.map (fun p => (p.1, (p.2 : ℚ) / (maxFreq : ℚ)))

/-- `TFIDFSummarizer._calculate_word_frequencies` (the `word_tokenize` call may
raise; everything after it is pure). -/
def calculate_word_frequencies (T : Tokenizer) (text : String) :
    Except PyExc (List (String × ℚ)) :=
  match T.wordTokenize (pyLower text) with
  | .error e => .error e
  | .ok words => .ok (wordFreqOf words T.stopWords)

/-- The score loop of `_score_sentences` for one sentence: sum the frequency
weight of every token present in the table. -/
def sentenceScoreOf (word_freq : List (String × ℚ)) (words : List String) : ℚ :=
  words.foldl
    (fun acc word =>
      match dictGet? word_freq word with
      | some v => acc + v
      | none => acc)
    0

/-- The `for sentence in sentences` loop of `TFIDFSummarizer._score_sentences`:
a sentence with positive score is written into the dict, keyed by its text. -/
def score_sentences_go (T : Tokenizer) (word_freq : List (String × ℚ))
    (m : List (String × ℚ)) : List String → Except PyExc (List (String × ℚ))
  | [] => .ok m
  | s :: rest =>
    match T.wordTokenize (pyLower s) with
    | .error e => .error e
    | .ok words =>
      let score := sentenceScoreOf word_freq words
      score_sentences_go T word_freq (if 0 < score then dictSet m s score else m) rest

/-- `TFIDFSummarizer._score_sentences`. -/
def score_sentences (T : Tokenizer) (sentences : List String)
    (word_freq : List (String × ℚ)) : Except PyExc (List (String × ℚ)) :=
  score_sentences_go T word_freq [] sentences

/-- Python `int(q)` (truncation toward zero) on the rational model of a float. -/
def pyInt (q : ℚ) : ℤ := if 0 ≤ q then ⌊q⌋ else -⌊-q⌋

/-- Python `l[:n]` for an integer `n` (negative `n` counts from the end). -/
def pySlice (l : List α) (n : ℤ) : List α :=
  if 0 ≤ n then l.take n.toNat else l.take ((l.length : ℤ) + n).toNat

/-- Python `sentences.index(s)`: index of the first occurrence. -/
def pyIndexOf (l : List String) (s : String) : ℕ := l.findIdx (fun x => x = s)

/-- Python `" ".join(l)`. -/
def pyJoin : List String → String
  | [] => ""
  | [s] => s
  | s :: rest => s ++ " " ++ pyJoin rest

/-- Insert into a sorted list, placing `x` before the first element `y` with
`ge x y`; together with `pySortBy` this is a stable sort. -/
def pyInsertBy (ge : α → α → Bool) (x : α) : List α → List α
  | [] => [x]
  | y :: ys => if ge x y then x :: y :: ys else y :: pyInsertBy ge x ys

/-- Python `sorted`: a stable sort.  `ge x y` reads "x may come before y"
(true on ties, so that the original relative order of equal keys is kept). -/
def pySortBy (ge : α → α → Bool) : List α → List α
  | [] => []
  | x :: xs => pyInsertBy ge x (pySortBy ge xs)

/-- The comparison realised by `sorted(_, key=lambda x: x[1], reverse=True)`:
descending by score, original order kept on ties. -/
def scoreGe (a b : String × ℚ) : Bool := decide (b.2 ≤ a.2)

/-- The comparison realised by
`sorted(_, key=lambda x: sentences.index(x[0]))`: ascending by index of first
occurrence, original order kept on ties. -/
def idxGe (sentences : List String) (a b : String × ℚ) : Bool :=
  decide (pyIndexOf sentences a.1 ≤ pyIndexOf sentences b.1)

/-- The body of the `try` block of `TFIDFSummarizer.summarize`. -/
def summarizeBody (T : Tokenizer) (text : String) (ratio : ℚ) : Except PyExc String :=
  let text2 := preprocess_text text
  match T.sentTokenize text2 with
  | .error e => .error e
  | .ok sentences =>
    if sentences.length = 0 then .ok ""
    else
      match calculate_word_frequencies T text2 with
      | .error e => .error e
      | .ok word_freq =>
        if word_freq.isEmpty then .ok (sentences.headD "")
        else
          match score_sentences T sentences word_freq with
          | .error e => .error e
          | .ok sent_scores =>
            if sent_scores.isEmpty then .ok (sentences.headD "")
            else
              let num_sentences := (max 1 (pyInt ((sentences.length : ℚ) * ratio))).toNat
              let top_sentences := (pySortBy scoreGe sent_scores).take num_sentences
              let summary_sentences := pySortBy (idxGe sentences) top_sentences
              .ok (pyJoin (summary_sentences.map (fun p => p.1)))

/-- `TFIDFSummarizer.summarize`: the `except Exception` clause wraps any fault
of the body as `SummaryGeneratorError("Summarization failed: ...")` with the
original exception as cause. -/
def TFIDFSummarizer.summarize (T : Tokenizer) (text : String) (ratio : ℚ) :
    Except PyExc String :=
  match summarizeBody T text ratio with
  | .ok s => .ok s
  | .error e =>
    .error (.summaryGeneratorErrorFrom ("Summarization failed: " ++ e.message) e)

/-- The Strategy-pattern slot of `SummaryGenerator`: the default
`TFIDFSummarizer`, or any other `SummarizationStrategy` implementation. -/
inductive Strategy where
  | tfidf
  | custom (f : String → ℚ → Except PyExc String)

/-- `self.strategy.summarize(text, ratio)`. -/
def Strategy.run (g : Strategy) (T : Tokenizer) (text : String) (ratio : ℚ) :
    Except PyExc String :=
  match g with
  | .tfidf => TFIDFSummarizer.summarize T text ratio
  | .custom f => f text ratio

/-- `SummaryGenerator.generate_summary`: validate, delegate to the strategy,
re-raise `SummaryGeneratorError` unchanged and wrap any other exception. -/
def generate_summary (T : Tokenizer) (g : Strategy) (text : String) (ratio : ℚ) :
    Except PyExc String :=
  if text = "" ∨ pyStrip text = "" then .error EmptyInputError
  else if ¬ (0 ≤ ratio ∧ ratio ≤ 1) then .error InvalidRatioError
  else
    match g.run T text ratio with
    | .ok s => .ok s
    | .error e =>
      if e.isSGE then .error e
      else
        .error (.summaryGeneratorErrorFrom
          ("Unexpected error during summarization: " ++ e.message) e)

/-- The `length_ratios` table inside `SummaryGenerator.generate_summary_with_length`. -/
def length_ratios : List (String × ℚ) :=
  [("short", 15 / 100), ("medium", 30 / 100), ("long", 50 / 100)]

/-- `SummaryGenerator.generate_summary_with_length`. -/
def generate_summary_with_length (T : Tokenizer) (g : Strategy) (text : String)
    (len : String) : Except PyExc String :=
  match dictGet? length_ratios len with
  | none =>
    .error (.summaryGeneratorError
      "Invalid length. Must be one of ['short', 'medium', 'long']")
  | some ratio => generate_summary T g text ratio

/-- The body of the `try` block of `SummaryGenerator.extract_key_points`. -/
def extractKeyPointsBody (T : Tokenizer) (g : Strategy) (text : String)
    (num_points : ℤ) : Except PyExc (List String) :=
  match T.sentTokenize text with
  | .error e => .error e
  | .ok sentences =>
    if sentences.length = 0 then .ok []
    else
      match g with
      | .custom _ => .ok (pySlice sentences num_points)
      | .tfidf =>
        match calculate_word_frequencies T text with
        | .error e => .error e
        | .ok word_freq =>
          match score_sentences T sentences word_freq with
          | .error e => .error e
          | .ok sent_scores =>
            if sent_scores.isEmpty then .ok (pySlice sentences num_points)
            else
              .ok ((pySlice (pySortBy scoreGe sent_scores) num_points).map
                (fun p => p.1))

/-- `SummaryGenerator.extract_key_points`: the `except Exception` clause turns
any fault of the body into the normal return value `[]`. -/
def extract_key_points (T : Tokenizer) (g : Strategy) (text : String)
    (num_points : ℤ) : Except PyExc (List String) :=
  match extractKeyPointsBody T g text num_points with
  | .ok l => .ok l
  | .error _ => .ok []

/-- Sentence-terminal punctuation (spec §4.1: `.`, `!`, `?`). -/
def isTerminal (c : Char) : Bool := c = '.' || c = '!' || c = '?'

/-- Worker for `modelSentTokenize`: a sentence ends at terminal punctuation
followed by a space; the space is consumed, boundaries are preserved. -/
def splitSentencesAux : List Char → List Char → List String
  | [], acc => if acc.isEmpty then [] else [String.mk acc.reverse]
  | c :: rest, acc =>
    if acc.isEmpty && pyIsSpace c then splitSentencesAux rest []
    else if isTerminal c && rest.head? == some ' ' then
      String.mk (c :: acc).reverse :: splitSentencesAux rest []
    else splitSentencesAux rest (c :: acc)

/-- Modelled from the spec: the external nltk `sent_tokenize` collaborator,
following the Tokenizer contract of §4.1 — split at standard terminal
punctuation, preserve original substring boundaries, no sentence for
empty or whitespace-only input. -/
def modelSentTokenize (s : String) : List String :=
  let t := pyStrip s
  if t = "" then [] else splitSentencesAux t.toList []

/-- Worker for `modelWordTokenize`: maximal alphanumeric runs are word tokens,
any other non-space character is a token of its own. -/
def wordTokenizeAux : List Char → List Char → List String
  | [], acc => if acc.isEmpty then [] else [String.mk acc.reverse]
  | c :: rest, acc =>
    if c.isAlphanum then wordTokenizeAux rest (c :: acc)
    else
      (if acc.isEmpty then [] else [String.mk acc.reverse]) ++
      (if pyIsSpace c then [] else [String.mk [c]]) ++
      wordTokenizeAux rest []

/-- Modelled from the spec: the external nltk `word_tokenize` collaborator,
following the Tokenizer contract of §4.1 — maximal alphabetic/alphanumeric
runs become tokens, punctuation becomes single-character tokens that the
alphabetic filter later drops. -/
def modelWordTokenize (s : String) : List String := wordTokenizeAux s.toList []

/-- Modelled from the spec: a fragment of the read-only English stopword set
collaborator (§2, §5). -/
def modelStopWords : List String :=
  ["the", "is", "a", "an", "and", "of", "in", "are", "for", "to"]

/-- A concrete, pure `Tokenizer` instance built from the spec-modelled
collaborators; used to instantiate the theorems on concrete inputs. -/
def modelTokenizer : Tokenizer where
  sentTokenize := fun s => .ok (modelSentTokenize s)
  wordTokenize := fun s => .ok (modelWordTokenize s)
  stopWords := modelStopWords

/-- A `Tokenizer` whose `sent_tokenize` raises (as nltk does, e.g., on missing
punkt data): used to exercise the fault-handling paths. -/
def faultingTokenizer : Tokenizer where
  sentTokenize := fun _ => .error (.libraryError "sent_tokenize failure")
  wordTokenize := fun _ => .error (.libraryError "word_tokenize failure")
  stopWords := []

/-- The score `_score_sentences` computes for a sentence, for a tokenizer
whose `word_tokenize` is the pure function `w`. -/
def sentScore (w : String → List String) (word_freq : List (String × ℚ))
    (s : String) : ℚ :=
  sentenceScoreOf word_freq (w (pyLower s))

/-- One iteration of the sentence-scoring loop, for a tokenizer whose
`word_tokenize` is the pure function `w`. -/
def scoreStep (w : String → List String) (word_freq : List (String × ℚ))
    (m : List (String × ℚ)) (s : String) : List (String × ℚ) :=
  if 0 < sentScore w word_freq s then dictSet m s (sentScore w word_freq s) else m

/-- The sentence-scoring loop, for a tokenizer whose `word_tokenize` is the
pure function `w`: the value `score_sentences` computes when no call raises. -/
def scoreFold (w : String → List String) (word_freq : List (String × ℚ))
    (sentences : List String) : List (String × ℚ) :=
  sentences.foldl (scoreStep w word_freq) []

/-- Keep the first occurrence of every element, in first-occurrence order
(how the keys of a Python dict built by iteration are ordered). -/
def keepFirsts : List String → List String
  | [] => []
  | x :: xs => x :: keepFirsts (xs.filter (fun y => y ≠ x))
termination_by l => l.length
decreasing_by
  exact Nat.lt_succ_of_le (List.length_filter_le _ _)

/-- The ranking order the spec describes for the Selector (§4.4): strictly
descending by score, ties broken by ascending index of first occurrence. -/
def lexGe (sentences : List String) (a b : String × ℚ) : Bool :=
  decide (b.2 < a.2 ∨ (a.2 = b.2 ∧ pyIndexOf sentences a.1 ≤ pyIndexOf sentences b.1))

/-- Written from the claim (spec §4.4 `select_for_summary`): take the top
`max 1 ⌊n·ratio⌋` scored sentences by descending score with ties broken by
ascending original index, re-sort the chosen subset by ascending original
index, join with single spaces. -/
def select_for_summary_spec (sentences : List String)
    (sent_scores : List (String × ℚ)) (ratio : ℚ) : String :=
  let target_count := (max 1 ⌊(sentences.length : ℚ) * ratio⌋).toNat
  let chosen := (pySortBy (lexGe sentences) sent_scores).take target_count
  let ordered := pySortBy (idxGe sentences) chosen
  pyJoin (ordered.map (fun p => p.1))

/-- Written from the claim (spec §4.4 `select_for_key_points`): if nothing is
scored, the first `num_points` sentences in original order; otherwise the top
`num_points` by descending score (ties by ascending original index), left in
rank order. -/
def select_for_key_points_spec (sentences : List String)
    (sent_scores : List (String × ℚ)) (num_points : ℤ) : List String :=
  if sent_scores.isEmpty then sentences.take num_points.toNat
  else ((pySortBy (lexGe sentences) sent_scores).take num_points.toNat).map
    (fun p => p.1)

/-- The preset → ratio table the claim (and spec §6) attributes to the summary
path: the table of `ConfigManager.get_summary_length_ratio`. -/
def claimed_length_ratios : List (String × ℚ) :=
  [("short", 20 / 100), ("medium", 35 / 100), ("long", 50 / 100)]

theorem mem_pyInsertBy {ge : α → α → Bool} {x a : α} {l : List α} :
    a ∈ pyInsertBy ge x l ↔ a = x ∨ a ∈ l := by
  induction l with
  | nil => simp [pyInsertBy]
  | cons y ys ih =>
    by_cases h : ge x y
    · simp [pyInsertBy, h]
    · simp [pyInsertBy, h, ih]
      tauto

theorem pyInsertBy_perm (ge : α → α → Bool) (x : α) (l : List α) :
    List.Perm (pyInsertBy ge x l) (x :: l) := by
  induction l with
  | nil => simp [pyInsertBy]
  | cons y ys ih =>
    by_cases h : ge x y
    · simp [pyInsertBy, h]
    · simp only [pyInsertBy, h, if_neg]
      exact (ih.cons y).trans (List.Perm.swap x y ys)

theorem pySortBy_perm (ge : α → α → Bool) (l : List α) :
    List.Perm (pySortBy ge l) l := by
  induction l with
  | nil => simp [pySortBy]
  | cons x xs ih => exact (pyInsertBy_perm ge x (pySortBy ge xs)).trans (ih.cons x)

theorem mem_pySortBy {ge : α → α → Bool} {a : α} {l : List α} :
    a ∈ pySortBy ge l ↔ a ∈ l :=
  (pySortBy_perm ge l).mem_iff

theorem pyInsertBy_congr {ge1 ge2 : α → α → Bool} {x : α} {l : List α}
    (h : ∀ y ∈ l, ge1 x y = ge2 x y) : pyInsertBy ge1 x l = pyInsertBy ge2 x l := by
  induction l with
  | nil => rfl
  | cons y ys ih =>
    have hy := h y (by simp)
    by_cases hxy : ge1 x y
    · simp [pyInsertBy, hxy, hy ▸ hxy]
    · have hxy2 : ¬ ge2 x y = true := hy ▸ hxy
      simp only [pyInsertBy, if_neg hxy, if_neg hxy2]
      rw [ih (fun z hz => h z (by simp [hz]))]

theorem pySortBy_congr {ge1 ge2 : α → α → Bool} {R : α → α → Prop} {l : List α}
    (hR : ∀ a b, R a b → ge1 a b = ge2 a b) (h : l.Pairwise R) :
    pySortBy ge1 l = pySortBy ge2 l := by
  induction l with
  | nil => rfl
  | cons x xs ih =>
    rcases List.pairwise_cons.mp h with ⟨hx, hxs⟩
    simp only [pySortBy]
    rw [ih hxs]
    exact pyInsertBy_congr (fun y hy => hR x y (hx y (mem_pySortBy.mp hy)))

theorem pairwise_pyInsertBy {ge : α → α → Bool} {x : α} {l : List α}
    (htot : ∀ a b, ge a b = true ∨ ge b a = true)
    (htrans : ∀ a b c, ge a b = true → ge b c = true → ge a c = true)
    (h : l.Pairwise (fun a b => ge a b = true)) :
    (pyInsertBy ge x l).Pairwise (fun a b => ge a b = true) := by
  induction l with
  | nil => simp [pyInsertBy]
  | cons y ys ih =>
    rcases List.pairwise_cons.mp h with ⟨hy, hys⟩
    by_cases hxy : ge x y
    · simp only [pyInsertBy, if_pos hxy]
      refine List.pairwise_cons.mpr ⟨?_, h⟩
      intro b hb
      rcases List.mem_cons.mp hb with rfl | hb
      · exact hxy
      · exact htrans x y b hxy (hy b hb)
    · simp only [pyInsertBy, if_neg hxy]
      refine List.pairwise_cons.mpr ⟨?_, ih hys⟩
      intro b hb
      rcases mem_pyInsertBy.mp hb with rfl | hb
      · rcases htot b y with hby | hyb
        · exact absurd hby hxy
        · exact hyb
      · exact hy b hb

theorem pairwise_pySortBy {ge : α → α → Bool} {l : List α}
    (htot : ∀ a b, ge a b = true ∨ ge b a = true)
    (htrans : ∀ a b c, ge a b = true → ge b c = true → ge a c = true) :
    (pySortBy ge l).Pairwise (fun a b => ge a b = true) := by
  induction l with
  | nil => simp [pySortBy]
  | cons x xs ih => exact pairwise_pyInsertBy htot htrans ih

theorem keepFirsts_sublist (l : List String) : List.Sublist (keepFirsts l) l := by
  induction l using keepFirsts.induct with
  | case1 => simp [keepFirsts]
  | case2 x xs ih =>
    rw [keepFirsts]
    exact List.Sublist.cons₂ x (ih.trans (List.filter_sublist xs))

theorem mem_keepFirsts {a : String} {l : List String} :
    a ∈ keepFirsts l ↔ a ∈ l := by
  constructor
  · exact fun h => (keepFirsts_sublist l).mem h
  · induction l using keepFirsts.induct with
    | case1 => intro h; simp at h
    | case2 x xs ih =>
      intro h
      rw [keepFirsts]
      rcases List.mem_cons.mp h with rfl | hxs
      · exact List.mem_cons_self a _
      · by_cases hax : a = x
        · subst hax; exact List.mem_cons_self a _
        · exact List.mem_cons_of_mem x
            (ih (List.mem_filter.mpr ⟨hxs, by simp [hax]⟩))

theorem nodup_keepFirsts (l : List String) : (keepFirsts l).Nodup := by
  induction l using keepFirsts.induct with
  | case1 => simp [keepFirsts]
  | case2 x xs ih =>
    rw [keepFirsts]
    refine List.nodup_cons.mpr ⟨?_, ih⟩
    intro hmem
    have := List.mem_filter.mp (mem_keepFirsts.mp hmem)
    simp at this

theorem keepFirsts_append_singleton (l : List String) (s : String) :
    keepFirsts (l ++ [s]) = keepFirsts l ++ (if s ∈ l then [] else [s]) := by
  induction l using keepFirsts.induct with
  | case1 => simp [keepFirsts]
  | case2 x xs ih =>
    rw [List.cons_append, keepFirsts, keepFirsts, List.filter_append]
    by_cases hsx : s = x
    · subst hsx
      simp [List.filter_cons]
    · have hfs : List.filter (fun y => y ≠ x) [s] = [s] := by simp [hsx]
      rw [hfs, ih]
      have hmem : s ∈ xs.filter (fun y => y ≠ x) ↔ s ∈ x :: xs := by
        simp [List.mem_filter, hsx]
      by_cases hs : s ∈ x :: xs
      · rw [if_pos (hmem.mpr hs), if_pos hs]
        simp
      · rw [if_neg (fun hc => hs (hmem.mp hc)), if_neg hs]
        simp

/-- Canonical form of the sentence-score dict: one entry per first occurrence
of each positively-scored sentence text, in first-occurrence order. -/
def canonScores (w : String → List String) (word_freq : List (String × ℚ))
    (sentences : List String) : List (String × ℚ) :=
  (keepFirsts (sentences.filter (fun s => decide (0 < sentScore w word_freq s)))).map
    (fun s => (s, sentScore w word_freq s))

theorem canonScores_keys (w : String → List String) (word_freq : List (String × ℚ))
    (sentences : List String) :
    (canonScores w word_freq sentences).map (fun p => p.1) =
      keepFirsts (sentences.filter (fun s => decide (0 < sentScore w word_freq s))) := by
  unfold canonScores
  rw [List.map_map]
  exact List.map_id _

theorem scoreStep_canon (w : String → List String) (word_freq : List (String × ℚ))
    (pre : List String) (s : String) :
    scoreStep w word_freq (canonScores w word_freq pre) s =
      canonScores w word_freq (pre ++ [s]) := by
  unfold scoreStep
  by_cases hp : 0 < sentScore w word_freq s
  · rw [if_pos hp]
    unfold canonScores
    rw [List.filter_append]
    have hfs : List.filter (fun s2 => decide (0 < sentScore w word_freq s2)) [s] = [s] := by
      simp [hp]
    rw [hfs, keepFirsts_append_singleton]
    by_cases hs : s ∈ pre.filter (fun s2 => decide (0 < sentScore w word_freq s2))
    · rw [if_pos hs, List.append_nil]
      have hany : ((List.map (fun s2 => (s2, sentScore w word_freq s2))
          (keepFirsts (List.filter (fun s2 => decide (0 < sentScore w word_freq s2))
            pre))).any fun p => decide (p.1 = s)) = true := by
        simp only [List.any_eq_true, decide_eq_true_eq]
        exact ⟨(s, sentScore w word_freq s),
          List.mem_map_of_mem _ (mem_keepFirsts.mpr hs), rfl⟩
      unfold dictSet
      rw [if_pos hany, List.map_map]
      apply List.map_congr_left
      intro a _
      by_cases ha : a = s <;> simp [Function.comp, ha]
    · rw [if_neg hs]
      have hnone : ¬ ((List.map (fun s2 => (s2, sentScore w word_freq s2))
          (keepFirsts (List.filter (fun s2 => decide (0 < sentScore w word_freq s2))
            pre))).any fun p => decide (p.1 = s)) = true := by
        intro hc
        rw [List.any_eq_true] at hc
        obtain ⟨p, hpmem, hpkey⟩ := hc
        rcases List.mem_map.mp hpmem with ⟨a, hamem, rfl⟩
        have has : a = s := by simpa using hpkey
        exact hs (mem_keepFirsts.mp (has ▸ hamem))
      unfold dictSet
      rw [if_neg hnone, List.map_append]
      rfl
  · rw [if_neg hp]
    unfold canonScores
    rw [List.filter_append]
    have hfs : List.filter (fun s2 => decide (0 < sentScore w word_freq s2)) [s] = [] := by
      simp [hp]
    rw [hfs, List.append_nil]

theorem foldl_scoreStep_canon (w : String → List String) (word_freq : List (String × ℚ))
    (suf pre : List String) :
    suf.foldl (scoreStep w word_freq) (canonScores w word_freq pre) =
      canonScores w word_freq (pre ++ suf) := by
  induction suf generalizing pre with
  | nil => rw [List.append_nil]; rfl
  | cons s rest ih =>
    rw [List.foldl_cons, scoreStep_canon, ih]
    rw [List.append_assoc]
    rfl

theorem scoreFold_eq_canon (w : String → List String) (word_freq : List (String × ℚ))
    (sentences : List String) :
    scoreFold w word_freq sentences = canonScores w word_freq sentences := by
  have h := foldl_scoreStep_canon w word_freq sentences []
  simpa [canonScores, keepFirsts, scoreFold] using h

theorem pyIndexOf_cons (x : String) (xs : List String) (a : String) :
    pyIndexOf (x :: xs) a = if x = a then 0 else pyIndexOf xs a + 1 := by
  unfold pyIndexOf
  rw [List.findIdx_cons]
  by_cases h : x = a <;> simp [h]

theorem pairwise_idx_keepFirsts_filter (l : List String) (q : String → Bool) :
    (keepFirsts (l.filter q)).Pairwise
      (fun a b => pyIndexOf l a < pyIndexOf l b) := by
  induction l generalizing q with
  | nil => simp [keepFirsts]
  | cons x xs ih =>
    rw [List.filter_cons]
    by_cases hqx : q x = true
    · rw [if_pos hqx, keepFirsts]
      refine List.pairwise_cons.mpr ⟨?_, ?_⟩
      · intro b hb
        have hbmem := List.mem_filter.mp (mem_keepFirsts.mp hb)
        have hbx : b ≠ x := by simpa using hbmem.2
        rw [pyIndexOf_cons, pyIndexOf_cons, if_pos rfl,
          if_neg (fun hc => hbx hc.symm)]
        omega
      · rw [List.filter_filter]
        refine (ih _).imp_of_mem ?_
        intro a b ha hb hab
        have ha2 := (List.mem_filter.mp (mem_keepFirsts.mp ha)).2
        have hb2 := (List.mem_filter.mp (mem_keepFirsts.mp hb)).2
        simp only [Bool.and_eq_true, decide_eq_true_eq] at ha2 hb2
        rw [pyIndexOf_cons, pyIndexOf_cons, if_neg (fun hc => ha2.1 hc.symm),
          if_neg (fun hc => hb2.1 hc.symm)]
        omega
    · rw [if_neg hqx]
      refine (ih q).imp_of_mem ?_
      intro a b ha hb hab
      have haq : q a = true := (List.mem_filter.mp (mem_keepFirsts.mp ha)).2
      have hbq : q b = true := (List.mem_filter.mp (mem_keepFirsts.mp hb)).2
      have hax : a ≠ x := fun hc => by rw [hc] at haq; exact hqx haq
      have hbx : b ≠ x := fun hc => by rw [hc] at hbq; exact hqx hbq
      rw [pyIndexOf_cons, pyIndexOf_cons, if_neg (fun hc => hax hc.symm),
        if_neg (fun hc => hbx hc.symm)]
      omega

theorem pairwise_idx_canonScores (w : String → List String)
    (word_freq : List (String × ℚ)) (sentences : List String) :
    (canonScores w word_freq sentences).Pairwise
      (fun a b => pyIndexOf sentences a.1 < pyIndexOf sentences b.1) := by
  unfold canonScores
  rw [List.pairwise_map]
  exact pairwise_idx_keepFirsts_filter _ _

theorem sortScore_eq_sortLex (sentences : List String) (m : List (String × ℚ))
    (h : m.Pairwise (fun a b => pyIndexOf sentences a.1 < pyIndexOf sentences b.1)) :
    pySortBy scoreGe m = pySortBy (lexGe sentences) m := by
  refine pySortBy_congr ?_ h
  intro a b hab
  unfold scoreGe lexGe
  rw [decide_eq_decide]
  constructor
  · intro hba
    rcases lt_or_eq_of_le hba with hlt | heq
    · exact Or.inl hlt
    · exact Or.inr ⟨heq.symm, le_of_lt hab⟩
  · rintro (hlt | ⟨heq, _⟩)
    · exact le_of_lt hlt
    · exact le_of_eq heq.symm

/-- A tokenizer whose `word_tokenize` never raises and computes `w`. -/
def PureWordTok (T : Tokenizer) (w : String → List String) : Prop :=
  ∀ s, T.wordTokenize s = .ok (w s)

theorem calculate_word_frequencies_ok {T : Tokenizer} {w : String → List String}
    (hw : PureWordTok T w) (text : String) :
    calculate_word_frequencies T text = .ok (wordFreqOf (w (pyLower text)) T.stopWords) := by
  unfold calculate_word_frequencies
  rw [hw]

theorem score_sentences_go_ok {T : Tokenizer} {w : String → List String}
    (hw : PureWordTok T w) (word_freq : List (String × ℚ))
    (sentences : List String) (m : List (String × ℚ)) :
    score_sentences_go T word_freq m sentences =
      .ok (sentences.foldl (scoreStep w word_freq) m) := by
  induction sentences generalizing m with
  | nil => rfl
  | cons s rest ih =>
    rw [score_sentences_go, hw, List.foldl_cons]
    exact ih _

theorem score_sentences_ok {T : Tokenizer} {w : String → List String}
    (hw : PureWordTok T w) (sentences : List String)
    (word_freq : List (String × ℚ)) :
    score_sentences T sentences word_freq =
      .ok (scoreFold w word_freq sentences) :=
  score_sentences_go_ok hw word_freq sentences []

/-- On a consistent word tokenizer the sentence-score dict is exactly its
canonical form. -/
theorem score_sentences_canon {T : Tokenizer} {w : String → List String}
    (hw : PureWordTok T w) (sentences : List String)
    (word_freq : List (String × ℚ)) :
    score_sentences T sentences word_freq =
      .ok (canonScores w word_freq sentences) := by
  rw [score_sentences_ok hw, scoreFold_eq_canon]

/-- `TFIDFSummarizer.summarize` either succeeds or fails with a wrapped
`SummaryGeneratorError` carrying a cause. -/
theorem TFIDF_summarize_shape (T : Tokenizer) (text : String) (ratio : ℚ) :
    (∃ s, TFIDFSummarizer.summarize T text ratio = .ok s) ∨
    (∃ msg c, TFIDFSummarizer.summarize T text ratio =
      .error (.summaryGeneratorErrorFrom msg c)) := by
  unfold TFIDFSummarizer.summarize
  cases summarizeBody T text ratio with
  | ok s => exact Or.inl ⟨s, rfl⟩
  | error e => exact Or.inr ⟨_, _, rfl⟩

/-- The concrete document used to exhibit the preset-table divergence:
ten sentences, so that ratio 0.15 keeps 1 sentence but ratio 0.2 keeps 2. -/
def C1text : String :=
  "Alpha alpha alpha. Alpha beta. Beta gamma. One two. Three four. Five six. Seven eight. Nine ten. Eleven twelve. Thirteen fourteen."

/-- Claim C1, as stated, is false: `generate_summary_with_length` does not use
the claimed table (short=0.2, medium=0.35, long=0.5); on a ten-sentence
document the "short" preset keeps one sentence while ratio 0.2 keeps two. -/
theorem C1_cex :
    dictGet? claimed_length_ratios "short" = some (20 / 100) ∧
    generate_summary_with_length modelTokenizer .tfidf C1text "short" ≠
      generate_summary modelTokenizer .tfidf C1text (20 / 100) := by
  constructor
  · rfl
  · set_option maxRecDepth 200000 in
    with_unfolding_all exact of_decide_eq_true rfl

/-- Claim C1 (amended): for every text, `generate_summary_with_length(text, p)`
returns the same result as `generate_summary(text, r)` where `r` is 0.15 for
short, 0.30 for medium and 0.50 for long — the table inlined in
`SummaryGenerator.generate_summary_with_length`, not the one in
`ConfigManager.get_summary_length_ratio`. -/
theorem C1_preset_ratio_map (T : Tokenizer) (g : Strategy) (text : String) :
    generate_summary_with_length T g text "short" =
      generate_summary T g text (15 / 100) ∧
    generate_summary_with_length T g text "medium" =
      generate_summary T g text (30 / 100) ∧
    generate_summary_with_length T g text "long" =
      generate_summary T g text (50 / 100) :=
  ⟨rfl, rfl, rfl⟩

/-- Claim C3: `generate_summary` fails with `EmptyInputError` iff the text is
empty or whitespace-only, for every ratio (the emptiness check comes first);
for non-empty text it fails with `InvalidRatioError` iff the ratio lies
outside [0.0, 1.0]. -/
theorem C3_validation (T : Tokenizer) (text : String) (ratio : ℚ) :
    (generate_summary T .tfidf text ratio = .error EmptyInputError ↔
      pyStrip text = "") ∧
    (pyStrip text ≠ "" →
      (generate_summary T .tfidf text ratio = .error InvalidRatioError ↔
        ¬ (0 ≤ ratio ∧ ratio ≤ 1))) := by
  by_cases hempty : text = "" ∨ pyStrip text = ""
  · have hstrip : pyStrip text = "" := by
      rcases hempty with h | h
      · rw [h]; rfl
      · exact h
    unfold generate_summary
    rw [if_pos hempty]
    exact ⟨⟨fun _ => hstrip, fun _ => rfl⟩, fun hne => absurd hstrip hne⟩
  · have hstrip : pyStrip text ≠ "" := fun hc => hempty (Or.inr hc)
    unfold generate_summary
    rw [if_neg hempty]
    by_cases hr : 0 ≤ ratio ∧ ratio ≤ 1
    · rw [if_neg (not_not_intro hr)]
      rcases TFIDF_summarize_shape T text ratio with ⟨s, hok⟩ | ⟨msg, c, herr⟩
      · simp only [Strategy.run, hok]
        exact ⟨⟨fun hc => by simp at hc, fun hc => absurd hc hstrip⟩,
          fun _ => ⟨fun hc => by simp at hc, fun hc => absurd hr hc⟩⟩
      · simp only [Strategy.run, herr, PyExc.isSGE]
        refine ⟨⟨fun hc => ?_, fun hc => absurd hc hstrip⟩,
          fun _ => ⟨fun hc => ?_, fun hc => absurd hr hc⟩⟩
        · rw [EmptyInputError] at hc; simp at hc
        · rw [InvalidRatioError] at hc; simp at hc
    · rw [if_pos hr]
      refine ⟨⟨fun hc => ?_, fun hc => absurd hc hstrip⟩,
        fun _ => ⟨fun _ => hr, fun _ => rfl⟩⟩
      rw [InvalidRatioError, EmptyInputError] at hc
      simp at hc

/-- Claim C3 witness: concrete non-empty text and out-of-range ratio. -/
theorem C3_validation_witness :
    pyStrip "Hello world." ≠ "" ∧
    (generate_summary modelTokenizer .tfidf "Hello world." (3 / 2) =
        .error InvalidRatioError ↔
      ¬ ((0:ℚ) ≤ 3 / 2 ∧ (3:ℚ) / 2 ≤ 1)) :=
  ⟨by decide, (C3_validation modelTokenizer "Hello world." (3 / 2)).2 (by decide)⟩

/-- Claim C5: for non-empty text whose word-frequency table or sentence-score
table comes out empty, `generate_summary` does not fail and returns exactly
the first sentence of the normalized text, for every valid ratio. -/
theorem C5_degenerate_fallback (T : Tokenizer) (w : String → List String)
    (text : String) (ratio : ℚ) (sentences : List String)
    (hw : PureWordTok T w)
    (hst : T.sentTokenize (preprocess_text text) = .ok sentences)
    (hstrip : pyStrip text ≠ "")
    (hne : sentences ≠ [])
    (hr : 0 ≤ ratio ∧ ratio ≤ 1)
    (hdeg : wordFreqOf (w (pyLower (preprocess_text text))) T.stopWords = [] ∨
      scoreFold w (wordFreqOf (w (pyLower (preprocess_text text))) T.stopWords)
        sentences = []) :
    generate_summary T .tfidf text ratio = .ok (sentences.headD "") := by
  have hlen : ¬ sentences.length = 0 := by
    simpa [List.length_eq_zero] using hne
  have hbody : summarizeBody T text ratio = .ok (sentences.headD "") := by
    have hcwf := calculate_word_frequencies_ok hw (preprocess_text text)
    by_cases hwf : wordFreqOf (w (pyLower (preprocess_text text))) T.stopWords = []
    · simp only [summarizeBody, hst, if_neg hlen, hcwf, hwf]
      rfl
    · have hm : scoreFold w (wordFreqOf (w (pyLower (preprocess_text text)))
          T.stopWords) sentences = [] := by
        rcases hdeg with h | h
        · exact absurd h hwf
        · exact h
      have hnwf : ¬ (wordFreqOf (w (pyLower (preprocess_text text)))
          T.stopWords).isEmpty = true := by
        simpa [List.isEmpty_iff] using hwf
      simp only [summarizeBody, hst, if_neg hlen, hcwf, if_neg hnwf,
        score_sentences_ok hw, hm]
      rfl
  have hempty : ¬ (text = "" ∨ pyStrip text = "") := by
    rintro (rfl | h)
    · exact hstrip rfl
    · exact hstrip h
  unfold generate_summary
  rw [if_neg hempty, if_neg (not_not_intro hr)]
  simp only [Strategy.run, TFIDFSummarizer.summarize, hbody]

/-- A document consisting entirely of stopwords: its frequency table is empty. -/
def C5text : String := "The and of. In are."

/-- Claim C5 witness: the stopword-only document yields an empty frequency
table, and `generate_summary` returns its first sentence. -/
theorem C5_witness :
    wordFreqOf (modelWordTokenize (pyLower (preprocess_text C5text)))
      modelTokenizer.stopWords = [] ∧
    generate_summary modelTokenizer .tfidf C5text (1 / 2) = .ok "The and of." := by
  constructor
  · with_unfolding_all exact of_decide_eq_true rfl
  · have h := C5_degenerate_fallback modelTokenizer modelWordTokenize C5text (1 / 2)
      (modelSentTokenize (preprocess_text C5text)) (fun _ => rfl) rfl
      (by decide) (by decide)
      (by constructor
          · with_unfolding_all exact of_decide_eq_true rfl
          · with_unfolding_all exact of_decide_eq_true rfl)
      (Or.inl (by with_unfolding_all exact of_decide_eq_true rfl))
    exact h.trans (by with_unfolding_all exact of_decide_eq_true rfl)

/-- Claim C6 (amended): inside `generate_summary`/`summarize` every internal
fault is wrapped and re-raised as `SummaryGeneratorError` carrying the
original cause, and a `SummaryGeneratorError` is re-raised unchanged; but
`extract_key_points` catches any internal fault and returns the empty list
as a normal value instead of raising. -/
theorem C6_error_propagation (T : Tokenizer) (text : String) (ratio : ℚ) :
    (∀ e, summarizeBody T text ratio = .error e →
      TFIDFSummarizer.summarize T text ratio =
        .error (.summaryGeneratorErrorFrom ("Summarization failed: " ++ e.message) e)) ∧
    (∀ f msg, ¬ (text = "" ∨ pyStrip text = "") → (0 ≤ ratio ∧ ratio ≤ 1) →
      f text ratio = .error (.libraryError msg) →
      generate_summary T (.custom f) text ratio =
        .error (.summaryGeneratorErrorFrom
          ("Unexpected error during summarization: " ++ msg) (.libraryError msg))) ∧
    (∀ e, ¬ (text = "" ∨ pyStrip text = "") → (0 ≤ ratio ∧ ratio ≤ 1) →
      TFIDFSummarizer.summarize T text ratio = .error e →
      generate_summary T .tfidf text ratio = .error e) ∧
    (∀ (g : Strategy) (num_points : ℤ) e,
      extractKeyPointsBody T g text num_points = .error e →
      extract_key_points T g text num_points = .ok []) := by
  refine ⟨?_, ?_, ?_, ?_⟩
  · intro e he
    unfold TFIDFSummarizer.summarize
    rw [he]
  · intro f msg hne hr hf
    unfold generate_summary
    rw [if_neg hne, if_neg (not_not_intro hr)]
    simp only [Strategy.run, hf, PyExc.isSGE, PyExc.message]
    rfl
  · intro e hne hr he
    unfold generate_summary
    rw [if_neg hne, if_neg (not_not_intro hr)]
    rcases TFIDF_summarize_shape T text ratio with ⟨s, hok⟩ | ⟨msg, c, herr⟩
    · rw [hok] at he; exact absurd he (by simp)
    · rw [herr] at he
      injection he with he2
      subst he2
      simp only [Strategy.run, herr, PyExc.isSGE]
      rfl
  · intro g num_points e he
    unfold extract_key_points
    rw [he]

/-- Claim C6, as stated, is false: a library fault inside
`extract_key_points` is converted into the normal return value `[]`, not
re-raised as a `SummaryGeneratorError`. -/
theorem C6_cex :
    extractKeyPointsBody faultingTokenizer .tfidf "One. Two." 3 =
      .error (.libraryError "sent_tokenize failure") ∧
    extract_key_points faultingTokenizer .tfidf "One. Two." 3 = .ok [] :=
  ⟨rfl, rfl⟩

/-- Claim C6 witness: a faulting tokenizer and a faulting custom strategy on
concrete inputs. -/
theorem C6_witness :
    extract_key_points faultingTokenizer .tfidf "One. Two." 3 = .ok [] ∧
    generate_summary faultingTokenizer
        (.custom (fun _ _ => .error (.libraryError "boom"))) "Hi there." (1 / 2) =
      .error (.summaryGeneratorErrorFrom
        ("Unexpected error during summarization: " ++ "boom") (.libraryError "boom")) := by
  constructor
  · exact (C6_error_propagation faultingTokenizer "One. Two." (1 / 2)).2.2.2 .tfidf 3
      (.libraryError "sent_tokenize failure") rfl
  · exact (C6_error_propagation faultingTokenizer "Hi there." (1 / 2)).2.1
      (fun _ _ => .error (.libraryError "boom")) "boom" (by decide)
      (by constructor <;> norm_num) rfl

/-- Claim C10: `extract_key_points` never raises: empty (or unsentencizable)
text gives `[]` rather than `EmptyInputError`, `num_points = 0` gives `[]`,
and any internal fault is caught and `[]` is returned. -/
theorem C10_never_raises (T : Tokenizer) (g : Strategy) (text : String)
    (num_points : ℤ) :
    (∃ l, extract_key_points T g text num_points = .ok l) ∧
    (T.sentTokenize text = .ok [] →
      extract_key_points T g text num_points = .ok []) ∧
    (extract_key_points T g text 0 = .ok []) ∧
    (∀ e, extractKeyPointsBody T g text num_points = .error e →
      extract_key_points T g text num_points = .ok []) := by
  refine ⟨?_, ?_, ?_, ?_⟩
  · unfold extract_key_points
    cases extractKeyPointsBody T g text num_points with
    | ok l => exact ⟨l, rfl⟩
    | error e => exact ⟨[], rfl⟩
  · intro hst
    unfold extract_key_points extractKeyPointsBody
    rw [hst]
    rfl
  · unfold extract_key_points extractKeyPointsBody
    cases hs : T.sentTokenize text with
    | error e => rfl
    | ok sentences =>
      dsimp only
      by_cases hlen : sentences.length = 0
      · rw [if_pos hlen]
      · rw [if_neg hlen]
        cases g with
        | custom f =>
          simp only [pySlice, List.take_zero]
          rfl
        | tfidf =>
          dsimp only
          cases hcw : calculate_word_frequencies T text with
          | error e => rfl
          | ok word_freq =>
            dsimp only
            cases hsc : score_sentences T sentences word_freq with
            | error e => rfl
            | ok sent_scores =>
              dsimp only
              by_cases hse : sent_scores.isEmpty = true
              · rw [if_pos hse]
                simp only [pySlice, List.take_zero]
                rfl
              · rw [if_neg hse]
                simp only [pySlice, List.take_zero, List.map_nil]
                rfl
  · intro e he
    unfold extract_key_points
    rw [he]

/-- Claim C10 witness: empty text, a zero count, and a faulting tokenizer. -/
theorem C10_witness :
    modelTokenizer.sentTokenize "" = .ok [] ∧
    extract_key_points modelTokenizer .tfidf "" 5 = .ok [] ∧
    extract_key_points faultingTokenizer .tfidf "abc" 0 = .ok [] := by
  have h1 := C10_never_raises modelTokenizer .tfidf "" 5
  have h2 := C10_never_raises faultingTokenizer .tfidf "abc" 0
  exact ⟨rfl, h1.2.1 rfl, h2.2.2.1⟩

theorem bumpCount_pos {m : List (String × ℕ)} (hm : ∀ p ∈ m, 1 ≤ p.2)
    (word : String) : ∀ p ∈ bumpCount m word, 1 ≤ p.2 := by
  intro p hp
  unfold bumpCount at hp
  by_cases h : m.any (fun p2 => p2.1 = word)
  · rw [if_pos h] at hp
    rcases List.mem_map.mp hp with ⟨q, hq, rfl⟩
    by_cases hqw : q.1 = word
    · simp only [hqw, if_pos]
      exact le_trans (hm q hq) (by simp)
    · simp only [hqw, if_neg, if_false]
      exact hm q hq
  · rw [if_neg h] at hp
    rcases List.mem_append.mp hp with hp2 | hp2
    · exact hm p hp2
    · rcases List.mem_singleton.mp hp2 with rfl
      exact le_refl 1

theorem countWords_go_pos (ws : List String) (m : List (String × ℕ))
    (hm : ∀ p ∈ m, 1 ≤ p.2) : ∀ p ∈ ws.foldl bumpCount m, 1 ≤ p.2 := by
  induction ws generalizing m with
  | nil => exact hm
  | cons word rest ih =>
    rw [List.foldl_cons]
    exact ih _ (bumpCount_pos hm word)

theorem countWords_pos (ws : List String) : ∀ p ∈ countWords ws, 1 ≤ p.2 :=
  countWords_go_pos ws [] (by simp)

theorem bumpCount_length (m : List (String × ℕ)) (word : String) :
    m.length ≤ (bumpCount m word).length := by
  unfold bumpCount
  by_cases h : m.any (fun p2 => p2.1 = word)
  · rw [if_pos h, List.length_map]
  · rw [if_neg h, List.length_append]
    simp

theorem countWords_go_length (ws : List String) (m : List (String × ℕ)) :
    m.length ≤ (ws.foldl bumpCount m).length := by
  induction ws generalizing m with
  | nil => exact le_refl _
  | cons word rest ih =>
    rw [List.foldl_cons]
    exact le_trans (bumpCount_length m word) (ih _)

theorem countWords_ne_nil {ws : List String} (h : ws ≠ []) : countWords ws ≠ [] := by
  match ws with
  | [] => exact absurd rfl h
  | word :: rest =>
    intro hc
    have h1 : (1:ℕ) ≤ (countWords (word :: rest)).length := by
      unfold countWords
      rw [List.foldl_cons]
      refine le_trans ?_ (countWords_go_length rest (bumpCount [] word))
      unfold bumpCount
      simp
    rw [hc] at h1
    simp at h1

theorem le_listMax {v : ℕ} {l : List ℕ} (h : v ∈ l) : v ≤ listMax l := by
  induction l with
  | nil => simp at h
  | cons x xs ih =>
    unfold listMax
    rw [List.foldr_cons]
    rcases List.mem_cons.mp h with rfl | h2
    · exact le_max_left _ _
    · exact le_trans (ih h2) (le_max_right _ _)

theorem listMax_mem {l : List ℕ} (h : l ≠ []) : listMax l ∈ l := by
  induction l with
  | nil => exact absurd rfl h
  | cons x xs ih =>
    cases xs with
    | nil => simp [listMax]
    | cons y ys =>
      have hmem : List.foldr max 0 (y :: ys) ∈ y :: ys := ih (by simp)
      unfold listMax
      rw [List.foldr_cons]
      rcases max_choice x (List.foldr max 0 (y :: ys)) with hm | hm
      · rw [hm]
        exact List.mem_cons_self _ _
      · rw [hm]
        exact List.mem_cons_of_mem x hmem

/-- Claim C8: the word-frequency table has all weights in [0,1]; when
non-empty, a token of maximal raw count has weight exactly 1; and it is empty
iff no token survives the stopword and alphabetic filters. -/
theorem C8_frequency_table (T : Tokenizer) (text : String)
    (w : String → List String) (hw : PureWordTok T w) :
    calculate_word_frequencies T text =
      .ok (wordFreqOf (w (pyLower text)) T.stopWords) ∧
    (∀ p ∈ wordFreqOf (w (pyLower text)) T.stopWords, 0 ≤ p.2 ∧ p.2 ≤ 1) ∧
    (wordFreqOf (w (pyLower text)) T.stopWords ≠ [] →
      ∃ c ∈ countWords (filteredWords (w (pyLower text)) T.stopWords),
        c.2 = listMax ((countWords (filteredWords (w (pyLower text))
          T.stopWords)).map (fun p => p.2)) ∧
        (c.1, (1:ℚ)) ∈ wordFreqOf (w (pyLower text)) T.stopWords) ∧
    (wordFreqOf (w (pyLower text)) T.stopWords = [] ↔
      filteredWords (w (pyLower text)) T.stopWords = []) := by
  set F := filteredWords (w (pyLower text)) T.stopWords with hF
  by_cases hFe : F = []
  · refine ⟨calculate_word_frequencies_ok hw text, ?_, ?_, ?_⟩
    · intro p hp
      unfold wordFreqOf at hp
      rw [← hF, if_pos (by simp [hFe])] at hp
      simp at hp
    · intro hne
      exfalso
      apply hne
      unfold wordFreqOf
      rw [← hF, if_pos (by simp [hFe])]
    · unfold wordFreqOf
      rw [← hF, if_pos (by simp [hFe])]
      simp [hFe]
  · have hC : countWords F ≠ [] := countWords_ne_nil hFe
    have hwfeq : wordFreqOf (w (pyLower text)) T.stopWords =
        (countWords F).map (fun p =>
          (p.1, (p.2 : ℚ) / (listMax ((countWords F).map (fun p2 => p2.2)) : ℚ))) := by
      unfold wordFreqOf
      rw [← hF, if_neg (by simp [hFe])]
    set M := listMax ((countWords F).map (fun p2 => p2.2)) with hM
    have hMpos : 1 ≤ M := by
      match hCW : countWords F with
      | [] => exact absurd hCW hC
      | c :: cs =>
        have hmem : c.2 ∈ (countWords F).map (fun p2 => p2.2) := by
          rw [hCW]; exact List.mem_map_of_mem _ (List.mem_cons_self c cs)
        exact le_trans (countWords_pos F c (by rw [hCW]; exact List.mem_cons_self c cs))
          (le_listMax hmem)
    have hMQ : (0:ℚ) < (M:ℚ) := by
      have := hMpos
      positivity
    refine ⟨calculate_word_frequencies_ok hw text, ?_, ?_, ?_⟩
    · intro p hp
      rw [hwfeq] at hp
      rcases List.mem_map.mp hp with ⟨c, hc, rfl⟩
      constructor
      · positivity
      · rw [div_le_one hMQ]
        exact_mod_cast le_listMax (List.mem_map_of_mem _ hc)
    · intro _
      have hmem : M ∈ (countWords F).map (fun p2 => p2.2) :=
        listMax_mem (by simpa using hC)
      rcases List.mem_map.mp hmem with ⟨c, hc, hceq⟩
      refine ⟨c, hc, hceq, ?_⟩
      rw [hwfeq]
      have : ((c.2 : ℚ) / (M:ℚ)) = 1 := by
        rw [hceq]
        exact div_self (ne_of_gt hMQ)
      rw [← this]
      exact List.mem_map_of_mem _ hc
    · rw [hwfeq]
      constructor
      · intro hmap
        exact absurd (List.map_eq_nil_iff.mp hmap) hC
      · intro hcon
        exact absurd hcon hFe

/-- Claim C8 witness: a concrete three-word document. -/
theorem C8_witness :
    (∀ p ∈ wordFreqOf (modelWordTokenize (pyLower "Cats cats dogs."))
      modelTokenizer.stopWords, 0 ≤ p.2 ∧ p.2 ≤ 1) ∧
    (wordFreqOf (modelWordTokenize (pyLower "Cats cats dogs."))
        modelTokenizer.stopWords = [] ↔
      filteredWords (modelWordTokenize (pyLower "Cats cats dogs."))
        modelTokenizer.stopWords = []) := by
  have h := C8_frequency_table modelTokenizer "Cats cats dogs."
    modelWordTokenize (fun _ => rfl)
  exact ⟨h.2.1, h.2.2.2⟩

theorem pyInt_eq_floor {q : ℚ} (h : 0 ≤ q) : pyInt q = ⌊q⌋ := if_pos h

theorem length_pySortBy (ge : α → α → Bool) (l : List α) :
    (pySortBy ge l).length = l.length :=
  (pySortBy_perm ge l).length_eq

theorem mem_scoreFold (w : String → List String) (word_freq : List (String × ℚ))
    (sentences : List String) :
    ∀ p ∈ scoreFold w word_freq sentences, p.1 ∈ sentences := by
  rw [scoreFold_eq_canon]
  intro p hp
  unfold canonScores at hp
  rcases List.mem_map.mp hp with ⟨a, ha, rfl⟩
  exact (List.mem_filter.mp (mem_keepFirsts.mp ha)).1

theorem pairwise_idx_scoreFold (w : String → List String)
    (word_freq : List (String × ℚ)) (sentences : List String) :
    (scoreFold w word_freq sentences).Pairwise
      (fun a b => pyIndexOf sentences a.1 < pyIndexOf sentences b.1) := by
  rw [scoreFold_eq_canon]
  exact pairwise_idx_canonScores w word_freq sentences

/-- Claim C2: with at least one scored sentence and a valid ratio, the summary
is exactly the spec's selection: the top `max 1 ⌊n·ratio⌋` scored sentences by
descending score (ties broken by ascending original index), re-ordered by
ascending original index and joined by single spaces; exactly
`min target_count (number of scored sentences)` sentences are selected. -/
theorem C2_selection (T : Tokenizer) (w : String → List String) (text : String)
    (ratio : ℚ) (sentences : List String)
    (word_freq sent_scores : List (String × ℚ))
    (hw : PureWordTok T w)
    (hst : T.sentTokenize (preprocess_text text) = .ok sentences)
    (hwfdef : word_freq = wordFreqOf (w (pyLower (preprocess_text text))) T.stopWords)
    (hmdef : sent_scores = scoreFold w word_freq sentences)
    (hstrip : pyStrip text ≠ "")
    (hne : sentences ≠ [])
    (hr : 0 ≤ ratio ∧ ratio ≤ 1)
    (hwf : word_freq ≠ [])
    (hm : sent_scores ≠ []) :
    generate_summary T .tfidf text ratio =
      .ok (select_for_summary_spec sentences sent_scores ratio) ∧
    ((pySortBy (lexGe sentences) sent_scores).take
        (max 1 ⌊(sentences.length : ℚ) * ratio⌋).toNat).length =
      min (max 1 ⌊(sentences.length : ℚ) * ratio⌋).toNat sent_scores.length := by
  subst hwfdef
  subst hmdef
  have hlen : ¬ sentences.length = 0 := by
    simpa [List.length_eq_zero] using hne
  have hcwf := calculate_word_frequencies_ok hw (preprocess_text text)
  have hnwf : ¬ (wordFreqOf (w (pyLower (preprocess_text text)))
      T.stopWords).isEmpty = true := by
    simpa [List.isEmpty_iff] using hwf
  have hnm : ¬ (scoreFold w (wordFreqOf (w (pyLower (preprocess_text text)))
      T.stopWords) sentences).isEmpty = true := by
    simpa [List.isEmpty_iff] using hm
  have hq : (0:ℚ) ≤ (sentences.length : ℚ) * ratio :=
    mul_nonneg (by positivity) hr.1
  have hsorteq := sortScore_eq_sortLex sentences _
    (pairwise_idx_scoreFold w (wordFreqOf (w (pyLower (preprocess_text text)))
      T.stopWords) sentences)
  have hbody : summarizeBody T text ratio =
      .ok (select_for_summary_spec sentences
        (scoreFold w (wordFreqOf (w (pyLower (preprocess_text text))) T.stopWords)
          sentences) ratio) := by
    simp only [summarizeBody, hst, if_neg hlen, hcwf, if_neg hnwf,
      score_sentences_ok hw, if_neg hnm]
    unfold select_for_summary_spec
    rw [pyInt_eq_floor hq, hsorteq]
  have hempty : ¬ (text = "" ∨ pyStrip text = "") := by
    rintro (rfl | h)
    · exact hstrip rfl
    · exact hstrip h
  constructor
  · unfold generate_summary
    rw [if_neg hempty, if_neg (not_not_intro hr)]
    simp only [Strategy.run, TFIDFSummarizer.summarize, hbody]
  · rw [List.length_take, length_pySortBy]

/-- A four-sentence document with strictly decreasing sentence scores. -/
def C2text : String := "Apple apple apple. Apple pear. Pear fig. Fig plum."

/-- Claim C2 witness: on the concrete four-sentence document with ratio 0.5
the engine selects exactly the spec-side selection, which evaluates to the
top-two sentences in document order. -/
theorem C2_witness :
    scoreFold modelWordTokenize
      (wordFreqOf (modelWordTokenize (pyLower (preprocess_text C2text)))
        modelTokenizer.stopWords)
      (modelSentTokenize (preprocess_text C2text)) ≠ [] ∧
    generate_summary modelTokenizer .tfidf C2text (1 / 2) =
      .ok (select_for_summary_spec (modelSentTokenize (preprocess_text C2text))
        (scoreFold modelWordTokenize
          (wordFreqOf (modelWordTokenize (pyLower (preprocess_text C2text)))
            modelTokenizer.stopWords)
          (modelSentTokenize (preprocess_text C2text))) (1 / 2)) ∧
    generate_summary modelTokenizer .tfidf C2text (1 / 2) =
      .ok "Apple apple apple. Apple pear." := by
  have h := C2_selection modelTokenizer modelWordTokenize C2text (1 / 2)
    (modelSentTokenize (preprocess_text C2text))
    (wordFreqOf (modelWordTokenize (pyLower (preprocess_text C2text)))
      modelTokenizer.stopWords)
    (scoreFold modelWordTokenize
      (wordFreqOf (modelWordTokenize (pyLower (preprocess_text C2text)))
        modelTokenizer.stopWords)
      (modelSentTokenize (preprocess_text C2text)))
    (fun _ => rfl) rfl rfl rfl (by decide) (by decide)
    (by constructor <;> norm_num)
    (by with_unfolding_all exact of_decide_eq_true rfl)
    (by with_unfolding_all exact of_decide_eq_true rfl)
  refine ⟨by with_unfolding_all exact of_decide_eq_true rfl, h.1, ?_⟩
  exact h.1.trans (by with_unfolding_all exact of_decide_eq_true rfl)

/-- Claim C4: `extract_key_points` (TF-IDF strategy, `num_points ≥ 1`) returns
exactly the spec-side selection — at most `num_points` items, each a sentence
of the text, in descending score order with ties broken by ascending original
index, not re-sorted to document order; with no positively scored sentence it
returns the first `num_points` sentences in original order. -/
theorem C4_key_points (T : Tokenizer) (w : String → List String) (text : String)
    (num_points : ℤ) (sentences : List String)
    (word_freq sent_scores : List (String × ℚ))
    (hw : PureWordTok T w)
    (hst : T.sentTokenize text = .ok sentences)
    (hwfdef : word_freq = wordFreqOf (w (pyLower text)) T.stopWords)
    (hmdef : sent_scores = scoreFold w word_freq sentences)
    (hn : 1 ≤ num_points) :
    extract_key_points T .tfidf text num_points =
      .ok (select_for_key_points_spec sentences sent_scores num_points) ∧
    (select_for_key_points_spec sentences sent_scores num_points).length ≤
      num_points.toNat ∧
    (∀ s ∈ select_for_key_points_spec sentences sent_scores num_points,
      s ∈ sentences) := by
  subst hwfdef
  subst hmdef
  have hn0 : (0:ℤ) ≤ num_points := le_trans zero_le_one hn
  have hslice : ∀ (l : List String), pySlice l num_points = l.take num_points.toNat := by
    intro l
    unfold pySlice
    rw [if_pos hn0]
  have hsliceq : ∀ (l : List (String × ℚ)),
      pySlice l num_points = l.take num_points.toNat := by
    intro l
    unfold pySlice
    rw [if_pos hn0]
  have hmain : extract_key_points T .tfidf text num_points =
      .ok (select_for_key_points_spec sentences
        (scoreFold w (wordFreqOf (w (pyLower text)) T.stopWords) sentences)
        num_points) := by
    by_cases hlen : sentences.length = 0
    · have hsents : sentences = [] := List.length_eq_zero.mp hlen
      subst hsents
      unfold extract_key_points extractKeyPointsBody
      rw [hst]
      simp [select_for_key_points_spec, scoreFold]
    · have hsorteq := sortScore_eq_sortLex sentences _
        (pairwise_idx_scoreFold w (wordFreqOf (w (pyLower text)) T.stopWords)
          sentences)
      have hcwf := calculate_word_frequencies_ok hw text
      by_cases hme : scoreFold w (wordFreqOf (w (pyLower text)) T.stopWords)
          sentences = []
      · unfold extract_key_points extractKeyPointsBody
        simp only [hst, if_neg hlen, hcwf, score_sentences_ok hw, hme]
        unfold select_for_key_points_spec
        rw [hslice]
        rfl
      · have hnm : ¬ (scoreFold w (wordFreqOf (w (pyLower text)) T.stopWords)
            sentences).isEmpty = true := by
          simpa [List.isEmpty_iff] using hme
        have hnm2 : ((scoreFold w (wordFreqOf (w (pyLower text)) T.stopWords)
            sentences).isEmpty = true) = False := by
          simp [hnm]
        unfold extract_key_points extractKeyPointsBody
        simp only [hst, if_neg hlen, hcwf, score_sentences_ok hw, hnm2,
          if_false, hsliceq, hsorteq]
        unfold select_for_key_points_spec
        rw [if_neg hnm]
  refine ⟨hmain, ?_, ?_⟩
  · unfold select_for_key_points_spec
    by_cases hse : (scoreFold w (wordFreqOf (w (pyLower text)) T.stopWords)
        sentences).isEmpty = true
    · rw [if_pos hse]
      exact List.length_take_le _ _
    · rw [if_neg hse, List.length_map]
      exact List.length_take_le _ _
  · unfold select_for_key_points_spec
    by_cases hse : (scoreFold w (wordFreqOf (w (pyLower text)) T.stopWords)
        sentences).isEmpty = true
    · rw [if_pos hse]
      intro s hs
      exact List.take_subset _ _ hs
    · rw [if_neg hse]
      intro s hs
      rcases List.mem_map.mp hs with ⟨p, hp, rfl⟩
      have hp2 : p ∈ pySortBy (lexGe sentences)
          (scoreFold w (wordFreqOf (w (pyLower text)) T.stopWords) sentences) :=
        List.take_subset _ _ hp
      exact mem_scoreFold w _ sentences p (mem_pySortBy.mp hp2)

set_option maxRecDepth 400000 in
/-- Claim C4 witness: key points on the concrete four-sentence document are
the two top-scored sentences in rank order. -/
theorem C4_witness :
    extract_key_points modelTokenizer .tfidf C2text 2 =
      .ok (select_for_key_points_spec (modelSentTokenize C2text)
        (scoreFold modelWordTokenize
          (wordFreqOf (modelWordTokenize (pyLower C2text))
            modelTokenizer.stopWords) (modelSentTokenize C2text)) 2) ∧
    extract_key_points modelTokenizer .tfidf C2text 2 =
      .ok ["Apple apple apple.", "Apple pear."] := by
  have h := C4_key_points modelTokenizer modelWordTokenize C2text 2
    (modelSentTokenize C2text)
    (wordFreqOf (modelWordTokenize (pyLower C2text)) modelTokenizer.stopWords)
    (scoreFold modelWordTokenize
      (wordFreqOf (modelWordTokenize (pyLower C2text)) modelTokenizer.stopWords)
      (modelSentTokenize C2text))
    (fun _ => rfl) rfl rfl rfl (by norm_num)
  exact ⟨h.1, h.1.trans (by with_unfolding_all exact of_decide_eq_true rfl)⟩

theorem pyIndexOf_inj {l : List String} {a b : String} (ha : a ∈ l) (hb : b ∈ l)
    (h : pyIndexOf l a = pyIndexOf l b) : a = b := by
  induction l with
  | nil => simp at ha
  | cons x xs ih =>
    rw [pyIndexOf_cons, pyIndexOf_cons] at h
    by_cases hxa : x = a
    · by_cases hxb : x = b
      · rw [← hxa, ← hxb]
      · rw [if_pos hxa, if_neg hxb] at h
        omega
    · by_cases hxb : x = b
      · rw [if_neg hxa, if_pos hxb] at h
        omega
      · rw [if_neg hxa, if_neg hxb] at h
        have ha2 : a ∈ xs := by
          rcases List.mem_cons.mp ha with rfl | h2
          · exact absurd rfl hxa
          · exact h2
        have hb2 : b ∈ xs := by
          rcases List.mem_cons.mp hb with rfl | h2
          · exact absurd rfl hxb
          · exact h2
        exact ih ha2 hb2 (by omega)

theorem idxGe_total (sentences : List String) (a b : String × ℚ) :
    idxGe sentences a b = true ∨ idxGe sentences b a = true := by
  unfold idxGe
  rcases Nat.le_total (pyIndexOf sentences a.1) (pyIndexOf sentences b.1) with h | h
  · exact Or.inl (decide_eq_true h)
  · exact Or.inr (decide_eq_true h)

theorem idxGe_trans (sentences : List String) (a b c : String × ℚ)
    (hab : idxGe sentences a b = true) (hbc : idxGe sentences b c = true) :
    idxGe sentences a c = true := by
  unfold idxGe at hab hbc ⊢
  exact decide_eq_true (le_trans (of_decide_eq_true hab) (of_decide_eq_true hbc))

/-- Claim C9: sentence scores are keyed by sentence text, so duplicate
sentences collapse to a single scored entry; the selected sentence list (for
any selection size) contains each distinct text at most once and is ordered
by the original index of each text's first occurrence. -/
theorem C9_duplicates (w : String → List String) (word_freq : List (String × ℚ))
    (sentences : List String) (_hdup : ¬ sentences.Nodup) :
    ((scoreFold w word_freq sentences).map (fun p => p.1)).Nodup ∧
    (∀ n : ℕ,
      ((pySortBy (idxGe sentences)
          ((pySortBy scoreGe (scoreFold w word_freq sentences)).take n)).map
        (fun p => p.1)).Nodup ∧
      ((pySortBy (idxGe sentences)
          ((pySortBy scoreGe (scoreFold w word_freq sentences)).take n)).map
        (fun p => p.1)).Pairwise
        (fun a b => pyIndexOf sentences a < pyIndexOf sentences b)) := by
  have hkeys : (scoreFold w word_freq sentences).map (fun p => p.1) =
      keepFirsts (sentences.filter
        (fun s => decide (0 < sentScore w word_freq s))) := by
    rw [scoreFold_eq_canon]
    exact canonScores_keys w word_freq sentences
  have hkn : ((scoreFold w word_freq sentences).map (fun p => p.1)).Nodup := by
    rw [hkeys]
    exact nodup_keepFirsts _
  refine ⟨hkn, ?_⟩
  intro n
  have hperm1 : List.Perm
      ((pySortBy (idxGe sentences)
        ((pySortBy scoreGe (scoreFold w word_freq sentences)).take n)).map
          (fun p => p.1))
      (((pySortBy scoreGe (scoreFold w word_freq sentences)).take n).map
        (fun p => p.1)) :=
    (pySortBy_perm _ _).map _
  have hsub : List.Sublist
      (((pySortBy scoreGe (scoreFold w word_freq sentences)).take n).map
        (fun p => p.1))
      ((pySortBy scoreGe (scoreFold w word_freq sentences)).map (fun p => p.1)) :=
    (List.take_sublist _ _).map _
  have hperm2 : List.Perm
      ((pySortBy scoreGe (scoreFold w word_freq sentences)).map (fun p => p.1))
      ((scoreFold w word_freq sentences).map (fun p => p.1)) :=
    (pySortBy_perm _ _).map _
  have hnodup : ((pySortBy (idxGe sentences)
      ((pySortBy scoreGe (scoreFold w word_freq sentences)).take n)).map
        (fun p => p.1)).Nodup :=
    hperm1.nodup_iff.mpr ((hperm2.nodup_iff.mpr hkn).sublist hsub)
  have hmemS : ∀ a ∈ (pySortBy (idxGe sentences)
      ((pySortBy scoreGe (scoreFold w word_freq sentences)).take n)).map
        (fun p => p.1), a ∈ sentences := by
    intro a ha
    have h1 := hperm1.mem_iff.mp ha
    have h2 := hsub.subset h1
    have h3 := hperm2.mem_iff.mp h2
    rcases List.mem_map.mp h3 with ⟨p, hp, rfl⟩
    exact mem_scoreFold w word_freq sentences p hp
  have hsorted := @pairwise_pySortBy _ (idxGe sentences)
    ((pySortBy scoreGe (scoreFold w word_freq sentences)).take n)
    (idxGe_total sentences) (idxGe_trans sentences)
  have hle : ((pySortBy (idxGe sentences)
      ((pySortBy scoreGe (scoreFold w word_freq sentences)).take n)).map
        (fun p => p.1)).Pairwise
      (fun a b => pyIndexOf sentences a ≤ pyIndexOf sentences b) := by
    rw [List.pairwise_map]
    exact hsorted.imp (fun h => of_decide_eq_true h)
  have hne : ((pySortBy (idxGe sentences)
      ((pySortBy scoreGe (scoreFold w word_freq sentences)).take n)).map
        (fun p => p.1)).Pairwise (fun a b => a ≠ b) := hnodup
  refine ⟨hnodup, ?_⟩
  refine (hle.and hne).imp_of_mem ?_
  intro a b hma hmb hab
  exact lt_of_le_of_ne hab.1
    (fun heq => hab.2 (pyIndexOf_inj (hmemS a hma) (hmemS b hmb) heq))

/-- A document whose first and third sentences are byte-identical. -/
def C9text : String := "Cats cats. Dogs bark. Cats cats."

set_option maxRecDepth 400000 in
/-- Claim C9 witness: the duplicated sentence is scored once, and even with
ratio 1.0 the summary mentions it only once. -/
theorem C9_witness :
    ¬ (modelSentTokenize C9text).Nodup ∧
    ((scoreFold modelWordTokenize
        (wordFreqOf (modelWordTokenize (pyLower C9text)) modelTokenizer.stopWords)
        (modelSentTokenize C9text)).map (fun p => p.1)).Nodup ∧
    (scoreFold modelWordTokenize
        (wordFreqOf (modelWordTokenize (pyLower C9text)) modelTokenizer.stopWords)
        (modelSentTokenize C9text)).map (fun p => p.1) =
      ["Cats cats.", "Dogs bark."] ∧
    generate_summary modelTokenizer .tfidf C9text 1 = .ok "Cats cats. Dogs bark." := by
  have h := C9_duplicates modelWordTokenize
    (wordFreqOf (modelWordTokenize (pyLower C9text)) modelTokenizer.stopWords)
    (modelSentTokenize C9text) (by decide)
  refine ⟨by decide, h.1, ?_, ?_⟩
  · with_unfolding_all exact of_decide_eq_true rfl
  · with_unfolding_all exact of_decide_eq_true rfl

theorem collapseAux_length_le (l : List Char) (b : Bool) :
    (collapseAux b l).length ≤ l.length := by
  induction l generalizing b with
  | nil => simp [collapseAux]
  | cons c rest ih =>
    unfold collapseAux
    by_cases hc : pyIsSpace c
    · rw [if_pos hc]
      by_cases hb : b
      · rw [if_pos hb]
        exact le_trans (ih true) (by simp)
      · rw [if_neg hb]
        simpa using ih true
    · rw [if_neg hc]
      simpa using ih false

theorem stripChars_length_le (l : List Char) : (stripChars l).length ≤ l.length := by
  unfold stripChars
  rw [List.length_reverse]
  refine le_trans (List.dropWhile_sublist pyIsSpace).length_le ?_
  rw [List.length_reverse]
  exact (List.dropWhile_sublist pyIsSpace).length_le

theorem preprocess_length_le (s : String) : (preprocess_text s).length ≤ s.length := by
  have h1 : (preprocess_text s).length =
      (stripChars (collapseAux false s.toList)).length := rfl
  have h2 : s.length = s.toList.length := rfl
  rw [h1, h2]
  exact le_trans (stripChars_length_le _) (collapseAux_length_le _ _)

/-- The length of `" ".join(l)` plus one: the sum of each element's length
plus one separator. -/
def joinWeight (l : List String) : ℕ := (l.map (fun s => s.length + 1)).sum

theorem pyJoin_length_succ {l : List String} (h : l ≠ []) :
    (pyJoin l).length + 1 = joinWeight l := by
  induction l with
  | nil => exact absurd rfl h
  | cons s rest ih =>
    cases rest with
    | nil => simp [pyJoin, joinWeight]
    | cons t ts =>
      have ihne := ih (by simp)
      have hone : (" " : String).length = 1 := rfl
      have hlen : (pyJoin (s :: t :: ts)).length =
          s.length + 1 + (pyJoin (t :: ts)).length := by
        rw [show pyJoin (s :: t :: ts) = s ++ " " ++ pyJoin (t :: ts) from rfl,
          String.length_append, String.length_append, hone]
      have hjw : joinWeight (s :: t :: ts) = (s.length + 1) + joinWeight (t :: ts) := by
        simp [joinWeight]
      omega

theorem joinWeight_le_of_subperm {l1 l2 : List String}
    (h : List.Subperm l1 l2) : joinWeight l1 ≤ joinWeight l2 := by
  rcases h with ⟨l3, hperm, hsub⟩
  have he : joinWeight l3 = joinWeight l1 := (hperm.map _).sum_eq
  have hle : joinWeight l3 ≤ joinWeight l2 :=
    (hsub.map _).sum_le_sum (fun a _ => Nat.zero_le a)
  omega

theorem pyJoin_length_mono {l1 l2 : List String} (h : List.Subperm l1 l2) :
    (pyJoin l1).length ≤ (pyJoin l2).length := by
  cases l1 with
  | nil => exact Nat.zero_le _
  | cons s rest =>
    have h1ne : s :: rest ≠ [] := by simp
    have h2ne : l2 ≠ [] := by
      intro hc
      subst hc
      have := h.length_le
      simp at this
    have e1 := pyJoin_length_succ h1ne
    have e2 := pyJoin_length_succ h2ne
    have hw := joinWeight_le_of_subperm h
    omega

theorem headD_length_le_pyJoin {l : List String} (h : l ≠ []) :
    (l.headD "").length ≤ (pyJoin l).length := by
  cases l with
  | nil => exact absurd rfl h
  | cons s rest =>
    cases rest with
    | nil => simp [pyJoin]
    | cons t ts =>
      simp only [List.headD_cons, pyJoin, String.length_append]
      omega

theorem selected_subperm (w : String → List String)
    (word_freq : List (String × ℚ)) (sentences : List String) (n : ℕ) :
    List.Subperm
      ((pySortBy (idxGe sentences)
        ((pySortBy scoreGe (scoreFold w word_freq sentences)).take n)).map
          (fun p => p.1)) sentences := by
  have hperm1 := ((pySortBy_perm (idxGe sentences)
    ((pySortBy scoreGe (scoreFold w word_freq sentences)).take n)).map
      (fun p => p.1)).subperm
  have hsub := (((List.take_sublist n
    (pySortBy scoreGe (scoreFold w word_freq sentences)))).map
      (fun p => p.1)).subperm
  have hperm2 := ((pySortBy_perm scoreGe (scoreFold w word_freq sentences)).map
    (fun p => p.1)).subperm
  have hkeys : (scoreFold w word_freq sentences).map (fun p => p.1) =
      keepFirsts (sentences.filter
        (fun s => decide (0 < sentScore w word_freq s))) := by
    rw [scoreFold_eq_canon]
    exact canonScores_keys w word_freq sentences
  have hsub2 : List.Subperm
      ((scoreFold w word_freq sentences).map (fun p => p.1)) sentences := by
    rw [hkeys]
    exact ((keepFirsts_sublist _).trans (List.filter_sublist _)).subperm
  exact hperm1.trans (hsub.trans (hperm2.trans hsub2))

/-- Claim C7: for non-empty text and ratio in (0,1], the summary string is
never longer than the input: normalization only shrinks the text, and the
summary is a sub-multiset of the normalized sentences joined by single
spaces. -/
theorem C7_length_bound (T : Tokenizer) (w : String → List String)
    (text : String) (ratio : ℚ) (sentences : List String) (out : String)
    (hw : PureWordTok T w)
    (hst : T.sentTokenize (preprocess_text text) = .ok sentences)
    (hJ : (pyJoin sentences).length ≤ (preprocess_text text).length)
    (hr1 : 0 < ratio) (hr2 : ratio ≤ 1)
    (hout : generate_summary T .tfidf text ratio = .ok out) :
    out.length ≤ text.length := by
  have hpre := preprocess_length_le text
  by_cases hempty : text = "" ∨ pyStrip text = ""
  · unfold generate_summary at hout
    rw [if_pos hempty] at hout
    simp at hout
  · have hr : 0 ≤ ratio ∧ ratio ≤ 1 := ⟨le_of_lt hr1, hr2⟩
    unfold generate_summary at hout
    rw [if_neg hempty, if_neg (not_not_intro hr)] at hout
    have hcwf := calculate_word_frequencies_ok hw (preprocess_text text)
    by_cases hlen : sentences.length = 0
    · have hbody : summarizeBody T text ratio = .ok "" := by
        simp only [summarizeBody, hst, if_pos hlen]
      simp only [Strategy.run, TFIDFSummarizer.summarize, hbody,
        Except.ok.injEq] at hout
      rw [← hout]
      exact Nat.zero_le _
    · have hne : sentences ≠ [] := by
        intro hc
        rw [hc] at hlen
        exact hlen rfl
      have hchain : (sentences.headD "").length ≤ text.length :=
        le_trans (headD_length_le_pyJoin hne) (le_trans hJ hpre)
      by_cases hwfe : wordFreqOf (w (pyLower (preprocess_text text)))
          T.stopWords = []
      · have hbody : summarizeBody T text ratio = .ok (sentences.headD "") := by
          simp only [summarizeBody, hst, if_neg hlen, hcwf, hwfe]
          rfl
        simp only [Strategy.run, TFIDFSummarizer.summarize, hbody,
          Except.ok.injEq] at hout
        rw [← hout]
        exact hchain
      · have hnwf : ¬ (wordFreqOf (w (pyLower (preprocess_text text)))
            T.stopWords).isEmpty = true := by
          simpa [List.isEmpty_iff] using hwfe
        by_cases hme : scoreFold w (wordFreqOf (w (pyLower (preprocess_text text)))
            T.stopWords) sentences = []
        · have hbody : summarizeBody T text ratio = .ok (sentences.headD "") := by
            simp only [summarizeBody, hst, if_neg hlen, hcwf, if_neg hnwf,
              score_sentences_ok hw, hme]
            rfl
          simp only [Strategy.run, TFIDFSummarizer.summarize, hbody,
            Except.ok.injEq] at hout
          rw [← hout]
          exact hchain
        · have hnm : ¬ (scoreFold w (wordFreqOf (w (pyLower (preprocess_text text)))
              T.stopWords) sentences).isEmpty = true := by
            simpa [List.isEmpty_iff] using hme
          have hbody : summarizeBody T text ratio =
              .ok (pyJoin ((pySortBy (idxGe sentences)
                ((pySortBy scoreGe (scoreFold w
                  (wordFreqOf (w (pyLower (preprocess_text text))) T.stopWords)
                  sentences)).take
                    (max 1 (pyInt ((sentences.length : ℚ) * ratio))).toNat)).map
                  (fun p => p.1))) := by
            simp only [summarizeBody, hst, if_neg hlen, hcwf, if_neg hnwf,
              score_sentences_ok hw, if_neg hnm]
          simp only [Strategy.run, TFIDFSummarizer.summarize, hbody,
            Except.ok.injEq] at hout
          rw [← hout]
          exact le_trans (pyJoin_length_mono (selected_subperm w _ sentences _))
            (le_trans hJ hpre)

/-- A document with redundant whitespace, so normalization strictly shrinks it. -/
def C7text : String := "  Apple apple apple.   Apple pear. "

/-- Claim C7 witness: on the concrete document with ratio 0.5 the summary is
one sentence and is shorter than the input. -/
theorem C7_witness :
    generate_summary modelTokenizer .tfidf C7text (1 / 2) =
      .ok "Apple apple apple." ∧
    ("Apple apple apple." : String).length ≤ C7text.length := by
  have hgen : generate_summary modelTokenizer .tfidf C7text (1 / 2) =
      .ok "Apple apple apple." := by
    set_option maxRecDepth 400000 in
    with_unfolding_all exact of_decide_eq_true rfl
  refine ⟨hgen, ?_⟩
  exact C7_length_bound modelTokenizer modelWordTokenize C7text (1 / 2)
    (modelSentTokenize (preprocess_text C7text)) "Apple apple apple."
    (fun _ => rfl) rfl (by with_unfolding_all exact of_decide_eq_true rfl)
    (by norm_num) (by norm_num) hgen
